import Mathlib

/-!
Shallow embedding of the trust-region framework of cobyqa
(`src/cobyqa/framework.py`, class `TrustRegion`) over exact real arithmetic.
Vectors are lists of reals, matrices are lists of row vectors; the numpy
block/stack operations become list concatenation.  The collaborators that are
not part of the sources (the `Models` bundle, the `Problem` handle and the
subproblem solvers of `cobyqa.subsolvers` / `scipy`) are modelled from the
specification as abstract data and abstract solver functions, as explained at
their declarations.
-/

namespace Cobyqa

noncomputable section

abbrev Vec := List ℝ

abbrev Mat := List (List ℝ)

/-- Dot product of two vectors (`u @ v` in numpy, equal lengths assumed). -/
def dot (u v : Vec) : ℝ := (List.zipWith (fun a b => a * b) u v).sum

/-- Sum of squares of the entries of a vector. -/
def sqSum (v : Vec) : ℝ := (v.map (fun x => x ^ 2)).sum

/-- Euclidean norm `np.linalg.norm(v)`. -/
def norm2 (v : Vec) : ℝ := Real.sqrt (sqSum v)

/-- Matrix-vector product `a @ v`. -/
def matVec (a : Mat) (v : Vec) : Vec := a.map (fun row => dot row v)

/-- Elementwise sum of two vectors of equal length; a missing tail acts as
zero, so the empty vector is an additive identity (this realises the numpy
convention that an empty multiplier block contributes nothing). -/
def vadd : Vec → Vec → Vec
  | [], v => v
  | u, [] => u
  | a :: u, b :: v => (a + b) :: vadd u v

/-- Elementwise negation `-v`. -/
def vneg (v : Vec) : Vec := v.map (fun x => -x)

/-- Elementwise difference `u - v` (equal lengths assumed). -/
def vsub (u v : Vec) : Vec := vadd u (vneg v)

/-- Scalar multiple `c * v`. -/
def smul (c : ℝ) (v : Vec) : Vec := v.map (fun x => c * x)

/-- `np.maximum(v, 0.0)`. -/
def max0 (v : Vec) : Vec := v.map (fun x => max x 0)

/-- `np.abs(v)`. -/
def vabs (v : Vec) : Vec := v.map (fun x => |x|)

/-- Row product of a vector with a matrix, `l @ m`; as in `vadd`, missing
blocks act as zero. -/
def vecMat : Vec → Mat → Vec
  | a :: l, r :: m => vadd (smul a r) (vecMat l m)
  | _, _ => []

/-- Boolean-mask row selection `arr[mask]` of numpy. -/
def maskFilter {α : Type} : List α → List Bool → List α
  | a :: l, b :: ms => if b then a :: maskFilter l ms else maskFilter l ms
  | _, _ => []

/-- `np.count_nonzero` of a boolean mask. -/
def countTrue (l : List Bool) : ℕ := (l.filter (fun b => b)).length

/-- Spread values at the `true` positions of a mask, zero elsewhere: the
embedding of `lm.fill(0.0); lm[mask] = vals`. -/
def scatter : List Bool → Vec → Vec
  | true :: ms, v :: vs => v :: scatter ms vs
  | true :: ms, [] => 0 :: scatter ms []
  | false :: ms, vs => 0 :: scatter ms vs
  | [], _ => []

/-- `np.eye(n)` as a list of rows. -/
def identityMat (n : ℕ) : Mat :=
  (List.range n).map (fun i => (List.range n).map (fun j => if i = j then (1 : ℝ) else 0))

/-- Transpose of a rectangular matrix. -/
def transposeM (m : Mat) : Mat :=
  (List.range (m.headD []).length).map (fun j => m.map (fun row => row.getD j 0))

/-- `np.finfo(float).eps = 2 ** (-52)`. -/
def epsF : ℝ := 1 / 2 ^ (52 : ℕ)

/-- `np.finfo(float).tiny = 2 ** (-1022)`. -/
def tinyF : ℝ := 1 / 2 ^ (1022 : ℕ)

/-- Modelled from the spec: the categorical `Problem.type` of
`cobyqa/problem.py`, which is not under `src/` (its tests are); §3 of the
specification lists exactly these four categories. -/
inductive PbType
  | unconstrained
  | bound_constrained
  | linearly_constrained
  | nonlinearly_constrained
deriving DecidableEq

/-- Modelled from the spec: the immutable problem handle of
`cobyqa/problem.py` (not under `src/`): bounds, linear constraints, the
categorical type and the constraint-residual oracle `resid`. -/
structure Problem where
  n : ℕ
  xl : Vec
  xu : Vec
  linear_ub_a : Mat
  linear_ub_b : Vec
  linear_eq_a : Mat
  linear_eq_b : Vec
  ptype : PbType
  resid : Vec → Vec → Vec → ℝ

/-- Modelled from the spec: the `Models` bundle of `cobyqa/models.py` (not
under `src/`).  It exposes the interpolation points, the cached objective and
constraint values at each point, and the value / gradient / Hessian-product
oracles of the quadratic models, exactly the interface `framework.py` uses. -/
structure Models where
  npt : ℕ
  point : ℕ → Vec
  fun_val : ℕ → ℝ
  cub_val : ℕ → Vec
  ceq_val : ℕ → Vec
  fun_grad : Vec → Vec
  fun_hess_prod : Vec → Vec
  cub : Vec → Vec
  ceq : Vec → Vec
  cub_grad : Vec → Mat
  ceq_grad : Vec → Mat
  cub_hess_prod : Vec → Mat
  ceq_hess_prod : Vec → Mat

/-- The recognized solver options (spec §6: `radius_init`, `radius_final`,
`debug`). -/
structure Options where
  radius_init : ℝ
  radius_final : ℝ
  debug : Bool

/-- The mutable state of the `TrustRegion` framework. -/
structure TR where
  pb : Problem
  models : Models
  penalty : ℝ
  best_index : ℕ
  radius : ℝ
  resolution : ℝ
  lm_linear_ub : Vec
  lm_linear_eq : Vec
  lm_nonlinear_ub : Vec
  lm_nonlinear_eq : Vec

/-- `TrustRegion.x_best`. -/
def x_best (st : TR) : Vec := st.models.point st.best_index

/-- `TrustRegion.fun_best`. -/
def fun_best (st : TR) : ℝ := st.models.fun_val st.best_index

/-- `TrustRegion.cub_best`. -/
def cub_best (st : TR) : Vec := st.models.cub_val st.best_index

/-- `TrustRegion.ceq_best`. -/
def ceq_best (st : TR) : Vec := st.models.ceq_val st.best_index

/-- `TrustRegion.lag_model_hess_prod`: Hessian of the Lagrangian model times a
vector; only the nonlinear constraint models contribute. -/
def lag_model_hess_prod (st : TR) (v : Vec) : Vec :=
  vadd (vadd (st.models.fun_hess_prod v) (vecMat st.lm_nonlinear_ub (st.models.cub_hess_prod v)))
    (vecMat st.lm_nonlinear_eq (st.models.ceq_hess_prod v))

/-- `TrustRegion.sqp_fun`. -/
def sqp_fun (st : TR) (step : Vec) : ℝ :=
  dot step (vadd (st.models.fun_grad (x_best st)) (smul 0.5 (lag_model_hess_prod st step)))

/-- `TrustRegion.sqp_cub`. -/
def sqp_cub (st : TR) (step : Vec) : Vec :=
  vadd (st.models.cub (x_best st)) (matVec (st.models.cub_grad (x_best st)) step)

/-- `TrustRegion.sqp_ceq`. -/
def sqp_ceq (st : TR) (step : Vec) : Vec :=
  vadd (st.models.ceq (x_best st)) (matVec (st.models.ceq_grad (x_best st)) step)

/-- `TrustRegion.merit` with all optional values supplied by the caller. -/
def merit (st : TR) (x : Vec) (fun_val : ℝ) (cub_val ceq_val : Vec) : ℝ :=
  if 0 < st.penalty then
    fun_val + st.penalty * norm2
      (max0 (vsub st.pb.xl x ++ vsub x st.pb.xu ++
          vsub (matVec st.pb.linear_ub_a x) st.pb.linear_ub_b ++ cub_val) ++
        vabs (vsub (matVec st.pb.linear_eq_a x) st.pb.linear_eq_b) ++ vabs ceq_val)
  else fun_val

/-- `aub` of `TrustRegion.get_constraint_linearizations`. -/
def aub_of (st : TR) (x : Vec) : Mat := st.pb.linear_ub_a ++ st.models.cub_grad x

/-- `bub` of `TrustRegion.get_constraint_linearizations`. -/
def bub_of (st : TR) (x : Vec) : Vec :=
  vsub st.pb.linear_ub_b (matVec st.pb.linear_ub_a x) ++ vneg (st.models.cub x)

/-- `aeq` of `TrustRegion.get_constraint_linearizations`. -/
def aeq_of (st : TR) (x : Vec) : Mat := st.pb.linear_eq_a ++ st.models.ceq_grad x

/-- `beq` of `TrustRegion.get_constraint_linearizations`. -/
def beq_of (st : TR) (x : Vec) : Vec :=
  vsub st.pb.linear_eq_b (matVec st.pb.linear_eq_a x) ++ vneg (st.models.ceq x)

/-- `TrustRegion.get_constraint_linearizations`. -/
def get_constraint_linearizations (st : TR) (x : Vec) : Mat × Vec × Mat × Vec :=
  (aub_of st x, bub_of st x, aeq_of st x, beq_of st x)

/-- `TrustRegion.get_reduction_ratio`. -/
def get_reduction_ratio (st : TR) (step : Vec) (fun_val : ℝ) (cub_val ceq_val : Vec) : ℝ :=
  let merit_old := merit st (x_best st) (fun_best st) (cub_best st) (ceq_best st)
  let merit_new := merit st (vadd (x_best st) step) fun_val cub_val ceq_val
  let merit_model_old := merit st (x_best st) 0 (st.models.cub (x_best st)) (st.models.ceq (x_best st))
  let merit_model_new :=
    merit st (vadd (x_best st) step) (sqp_fun st step) (sqp_cub st step) (sqp_ceq st step)
  if tinyF * |merit_old - merit_new| < |merit_model_old - merit_model_new| then
    (merit_old - merit_new) / |merit_model_old - merit_model_new|
  else -1

/-- The merit value of interpolation point `k` (what the `set_best_index`
loop computes as `m_val`). -/
def meritAt (st : TR) (k : ℕ) : ℝ :=
  merit st (st.models.point k) (st.models.fun_val k) (st.models.cub_val k) (st.models.ceq_val k)

/-- The constraint residual of interpolation point `k` (the loop's `r_val`). -/
def residAt (st : TR) (k : ℕ) : ℝ :=
  st.pb.resid (st.models.point k) (st.models.cub_val k) (st.models.ceq_val k)

/-- The tie-break tolerance of `set_best_index`, computed once from the merit
value at the incumbent best index. -/
def bestTol (st : TR) : ℝ :=
  10 * epsF * ((max st.pb.n st.models.npt : ℕ) : ℝ) * max |meritAt st st.best_index| 1

/-- One iteration of the `set_best_index` loop: skip the incumbent index,
otherwise adopt `k` when its merit is smaller, or smaller within the
tolerance with a smaller residual. -/
def bestStep (st : TR) (tol : ℝ) (acc : ℕ × ℝ × ℝ) (k : ℕ) : ℕ × ℝ × ℝ :=
  if k ≠ st.best_index then
    if meritAt st k < acc.2.1 ∨ (meritAt st k < acc.2.1 + tol ∧ residAt st k < acc.2.2) then
      (k, meritAt st k, residAt st k)
    else acc
  else acc

/-- `TrustRegion.set_best_index`; the loop is a fold of `bestStep` carrying
the incumbent index with its merit value and residual. -/
def set_best_index (st : TR) : TR :=
  { st with best_index :=
      ((List.range st.models.npt).foldl (bestStep st (bestTol st))
        (st.best_index, meritAt st st.best_index, residAt st st.best_index)).1 }

/-- `TrustRegion.increase_penalty`; returns the new state and the boolean the
method returns. -/
def increase_penalty (st : TR) (step : Vec) : TR × Bool :=
  let viol_diff :=
    norm2 (max0 (vneg (bub_of st (x_best st))) ++ beq_of st (x_best st)) -
      norm2 (max0 (vsub (matVec (aub_of st (x_best st)) step) (bub_of st (x_best st))) ++
        vsub (matVec (aeq_of st (x_best st)) step) (beq_of st (x_best st)))
  let sqp_var :=
    dot step (vadd (st.models.fun_grad (x_best st)) (smul 0.5 (lag_model_hess_prod st step)))
  let threshold0 :=
    norm2 (st.lm_linear_ub ++ st.lm_linear_eq ++ st.lm_nonlinear_ub ++ st.lm_nonlinear_eq)
  let threshold :=
    if tinyF * |sqp_var| < |viol_diff| then max threshold0 (sqp_var / viol_diff) else threshold0
  if st.penalty ≤ 1.5 * threshold then
    let st1 := set_best_index { st with penalty := 2 * threshold }
    (st1, st.best_index == st1.best_index)
  else (st, st.best_index == st.best_index)

/-- The `radius` property setter with its snap-to-floor rule. -/
def radius_set (st : TR) (r : ℝ) : TR :=
  { st with radius := if r ≤ 1.4 * st.resolution then st.resolution else r }

/-- `TrustRegion.update_radius`. -/
def update_radius (st : TR) (step : Vec) (ratio : ℝ) : TR :=
  if ratio ≤ 0.1 then radius_set st (st.radius * 0.5)
  else if ratio ≤ 0.7 then radius_set st (max (0.5 * st.radius) (norm2 step))
  else radius_set st (min (Real.sqrt 2 * st.radius) (max (0.5 * st.radius) (2 * norm2 step)))

/-- `TrustRegion.reduce_resolution`; the radius update writes the private
field directly, bypassing the snap-to-floor setter. -/
def reduce_resolution (st : TR) (options : Options) : TR :=
  let resolution :=
    if 250 * options.radius_final < st.resolution then st.resolution * 0.1
    else if 16 * options.radius_final < st.resolution then
      Real.sqrt (st.resolution * options.radius_final)
    else options.radius_final
  { st with resolution := resolution, radius := max (st.radius * 0.5) resolution }

/-- `TrustRegion.get_second_order_correction_step`.  The normal Byrd-Omojokun
solver lives in `cobyqa.subsolvers`, which is not under `src/`; it is
modelled from the spec as an abstract function of the linearizations, the
translated bounds and the trust-region radius. -/
def get_second_order_correction_step (normal_solver : Mat → Vec → Mat → Vec → Vec → Vec → ℝ → Vec)
    (st : TR) (step : Vec) : Vec :=
  normal_solver (aub_of st (x_best st)) (bub_of st (x_best st)) (aeq_of st (x_best st))
    (beq_of st (x_best st)) (vsub st.pb.xl (x_best st)) (vsub st.pb.xu (x_best st)) (dot step step)

/-- `TrustRegion.get_trust_region_step`.  The three Byrd-Omojokun solvers of
`cobyqa.subsolvers` are not under `src/` and are modelled from the spec as
abstract functions with the argument lists of §6; the `debug` flag only emits
warnings and does not change the returned value, so it is not passed on. -/
def get_trust_region_step (normal_solver : Mat → Vec → Mat → Vec → Vec → Vec → ℝ → Vec)
    (tangential_solver : Vec → (Vec → Vec) → Vec → Vec → ℝ → Vec)
    (constrained_solver : Vec → (Vec → Vec) → Vec → Vec → Mat → Vec → Mat → ℝ → Vec)
    (st : TR) : Vec × Vec :=
  let aub := aub_of st (x_best st)
  let bub := bub_of st (x_best st)
  let aeq := aeq_of st (x_best st)
  let beq := beq_of st (x_best st)
  let xl := vsub st.pb.xl (x_best st)
  let xu := vsub st.pb.xu (x_best st)
  let normal_step := normal_solver aub bub aeq beq xl xu (0.8 * st.radius)
  let radius := Real.sqrt (st.radius ^ 2 - dot normal_step normal_step)
  let xl1 := vsub xl normal_step
  let xu1 := vsub xu normal_step
  let bub1 := max0 (vsub bub (matVec aub normal_step))
  let g_best := vadd (st.models.fun_grad (x_best st)) (lag_model_hess_prod st normal_step)
  let tangential_step :=
    if st.pb.ptype = PbType.unconstrained ∨ st.pb.ptype = PbType.bound_constrained then
      tangential_solver g_best (fun v => lag_model_hess_prod st v) xl1 xu1 radius
    else
      constrained_solver g_best (fun v => lag_model_hess_prod st v) xl1 xu1 aub bub1 aeq radius
  (normal_step, tangential_step)

/-- Mask of the active linear inequality constraints, `a @ x_best >= b`. -/
def incl_linear (st : TR) : List Bool :=
  List.zipWith (fun a b => decide (b ≤ a)) (matVec st.pb.linear_ub_a (x_best st)) st.pb.linear_ub_b

/-- Mask of the active nonlinear inequality constraints, `cub_best >= 0`. -/
def incl_nonlinear (st : TR) : List Bool :=
  (cub_best st).map (fun c => decide ((0 : ℝ) ≤ c))

/-- Mask of the active lower bounds, `xl >= x_best`. -/
def incl_xl (st : TR) : List Bool :=
  List.zipWith (fun l xi => decide (xi ≤ l)) st.pb.xl (x_best st)

/-- Mask of the active upper bounds, `xu <= x_best`. -/
def incl_xu (st : TR) : List Bool :=
  List.zipWith (fun u xi => decide (u ≤ xi)) st.pb.xu (x_best st)

/-- The stacked active Jacobian `c_jac` of `TrustRegion.set_multipliers`. -/
def stacked_jacobian (st : TR) : Mat :=
  (maskFilter (identityMat st.pb.n) (incl_xl st)).map vneg ++
    maskFilter (identityMat st.pb.n) (incl_xu st) ++
    maskFilter st.pb.linear_ub_a (incl_linear st) ++
    maskFilter (st.models.cub_grad (x_best st)) (incl_nonlinear st) ++
    st.pb.linear_eq_a ++ st.models.ceq_grad (x_best st)

/-- `TrustRegion.set_multipliers`.  `lsq A b k` stands for
`scipy.optimize.lsq_linear(A, b, bounds=(xl_lm, inf), method='bvls').x`,
modelled from the spec (§6, §4.11): scipy is external, and the only structure
the framework relies on is that the first `k` coordinates of the solution are
constrained to be nonnegative while the rest are free. -/
def set_multipliers (lsq : Mat → Vec → ℕ → Vec) (st : TR) : TR :=
  let m_xl := countTrue (incl_xl st)
  let m_xu := countTrue (incl_xu st)
  let m_linear := countTrue (incl_linear st)
  let m_nonlinear := countTrue (incl_nonlinear st)
  let c_jac := stacked_jacobian st
  if 0 < c_jac.length * st.pb.n then
    let res := lsq (transposeM c_jac) (vneg (st.models.fun_grad (x_best st)))
      (m_xl + m_xu + m_linear + m_nonlinear)
    { st with
      lm_linear_ub := scatter (incl_linear st) ((res.drop (m_xl + m_xu)).take m_linear)
      lm_nonlinear_ub :=
        scatter (incl_nonlinear st) ((res.drop (m_xl + m_xu + m_linear)).take m_nonlinear)
      lm_linear_eq :=
        (res.drop (m_xl + m_xu + m_linear + m_nonlinear)).take st.pb.linear_eq_a.length
      lm_nonlinear_eq :=
        res.drop (m_xl + m_xu + m_linear + m_nonlinear + st.pb.linear_eq_a.length) }
  else st

/-- States reachable from a freshly constructed framework (`__init__` sets
`resolution = options['radius_init']` and `radius = resolution`) by calls to
`update_radius` and `reduce_resolution` with arbitrary steps and ratios. -/
inductive Reach (opts : Options) : TR → Prop
  | init (st : TR) (hres : st.resolution = opts.radius_init)
      (hrad : st.radius = opts.radius_init) : Reach opts st
  | update (st : TR) (step : Vec) (ratio : ℝ) (h : Reach opts st) :
      Reach opts (update_radius st step ratio)
  | reduce (st : TR) (h : Reach opts st) : Reach opts (reduce_resolution st opts)

lemma sqSum_nonneg (v : Vec) : 0 ≤ sqSum v := by
  induction v with
  | nil => simp [sqSum]
  | cons a l ih =>
    have : sqSum (a :: l) = a ^ 2 + sqSum l := by simp [sqSum]
    rw [this]
    positivity

lemma dot_self_eq_sqSum (v : Vec) : dot v v = sqSum v := by
  induction v with
  | nil => simp [dot, sqSum]
  | cons a l ih =>
    have h1 : dot (a :: l) (a :: l) = a * a + dot l l := by simp [dot]
    have h2 : sqSum (a :: l) = a ^ 2 + sqSum l := by simp [sqSum]
    rw [h1, h2, ih]; ring_nf

lemma norm2_sq (v : Vec) : norm2 v ^ 2 = dot v v := by
  rw [norm2, Real.sq_sqrt (sqSum_nonneg v), dot_self_eq_sqSum]

lemma norm2_nonneg (v : Vec) : 0 ≤ norm2 v := Real.sqrt_nonneg _

lemma radius_set_radius (st : TR) (r : ℝ) :
    (radius_set st r).radius = if r ≤ 1.4 * st.resolution then st.resolution else r := rfl

lemma radius_set_resolution (st : TR) (r : ℝ) :
    (radius_set st r).resolution = st.resolution := rfl

lemma radius_set_ge (st : TR) (r : ℝ) (h : 0 ≤ st.resolution) :
    st.resolution ≤ (radius_set st r).radius := by
  rw [radius_set_radius]
  split_ifs with hsnap
  · exact le_refl _
  · nlinarith

lemma update_radius_resolution (st : TR) (step : Vec) (ratio : ℝ) :
    (update_radius st step ratio).resolution = st.resolution := by
  unfold update_radius
  split_ifs <;> rfl

lemma update_radius_ge (st : TR) (step : Vec) (ratio : ℝ) (h : 0 ≤ st.resolution) :
    (update_radius st step ratio).resolution ≤ (update_radius st step ratio).radius := by
  rw [update_radius_resolution]
  unfold update_radius
  split_ifs <;> exact radius_set_ge st _ h

lemma reduce_resolution_res_lb (st : TR) (opts : Options) (h0 : 0 < opts.radius_final)
    (hres : opts.radius_final ≤ st.resolution) :
    opts.radius_final ≤ (reduce_resolution st opts).resolution := by
  show opts.radius_final ≤
    (if 250 * opts.radius_final < st.resolution then st.resolution * 0.1
     else if 16 * opts.radius_final < st.resolution then
       Real.sqrt (st.resolution * opts.radius_final)
     else opts.radius_final)
  split_ifs with h1 h2
  · nlinarith
  · have hrr : opts.radius_final * opts.radius_final ≤ st.resolution * opts.radius_final := by
      nlinarith
    calc opts.radius_final = Real.sqrt (opts.radius_final * opts.radius_final) :=
          (Real.sqrt_mul_self h0.le).symm
      _ ≤ Real.sqrt (st.resolution * opts.radius_final) := Real.sqrt_le_sqrt hrr
  · exact le_refl _

lemma reduce_resolution_ge (st : TR) (opts : Options) :
    (reduce_resolution st opts).resolution ≤ (reduce_resolution st opts).radius :=
  le_max_right _ _

/-- C8: assuming `radius_init >= radius_final > 0`, the chain
`radius >= resolution >= radius_final` holds after construction and is
preserved by every sequence of `update_radius` and `reduce_resolution`
calls. -/
theorem radius_resolution_invariant (opts : Options) (h0 : 0 < opts.radius_final)
    (h1 : opts.radius_final ≤ opts.radius_init) :
    ∀ st : TR, Reach opts st →
      opts.radius_final ≤ st.resolution ∧ st.resolution ≤ st.radius := by
  intro st h
  induction h with
  | init st hres hrad =>
    rw [hres, hrad]
    exact ⟨h1, le_refl _⟩
  | update st step ratio h ih =>
    have hr : 0 ≤ st.resolution := le_trans h0.le ih.1
    refine ⟨?_, update_radius_ge st step ratio hr⟩
    rw [update_radius_resolution]
    exact ih.1
  | reduce st h ih =>
    exact ⟨reduce_resolution_res_lb st opts h0 ih.1, reduce_resolution_ge st opts⟩

/-- A concrete problem handle used to build sample states. -/
def samplePb : Problem :=
  { n := 1, xl := [-5], xu := [5], linear_ub_a := [], linear_ub_b := [],
    linear_eq_a := [], linear_eq_b := [], ptype := PbType.unconstrained,
    resid := fun _ _ _ => 0 }

/-- A concrete models bundle used to build sample states. -/
def sampleMod : Models :=
  { npt := 2, point := fun k => if k = 0 then [0] else [1],
    fun_val := fun k => if k = 0 then 0 else 1,
    cub_val := fun _ => [], ceq_val := fun _ => [],
    fun_grad := fun _ => [1], fun_hess_prod := fun _ => [0],
    cub := fun _ => [], ceq := fun _ => [],
    cub_grad := fun _ => [], ceq_grad := fun _ => [],
    cub_hess_prod := fun _ => [], ceq_hess_prod := fun _ => [] }

/-- A concrete framework state used by the witnesses. -/
def sampleTR : TR :=
  { pb := samplePb, models := sampleMod, penalty := 0, best_index := 0,
    radius := 1, resolution := 1, lm_linear_ub := [], lm_linear_eq := [],
    lm_nonlinear_ub := [], lm_nonlinear_eq := [] }

/-- Witness for C8 at a concrete freshly constructed state. -/
theorem radius_resolution_invariant_witness :
    (1 : ℝ) / 2 ≤ sampleTR.resolution ∧ sampleTR.resolution ≤ sampleTR.radius :=
  radius_resolution_invariant { radius_init := 1, radius_final := 1 / 2, debug := false }
    (by norm_num) (by norm_num) sampleTR (Reach.init sampleTR rfl rfl)

/-- C6: `update_radius` sets the radius to `radius/2`, to
`max (radius/2) ‖s‖`, or to `min (sqrt 2 * radius) (max (radius/2) (2‖s‖))`
according to the reduction ratio, and the result is snapped to the resolution
exactly when it is at most `1.4 * resolution`. -/
theorem update_radius_spec (st : TR) (step : Vec) (ratio : ℝ) :
    (update_radius st step ratio).radius =
      (let raw :=
        if ratio ≤ 0.1 then st.radius / 2
        else if ratio ≤ 0.7 then max (st.radius / 2) (norm2 step)
        else min (Real.sqrt 2 * st.radius) (max (st.radius / 2) (2 * norm2 step))
      if raw ≤ 1.4 * st.resolution then st.resolution else raw) ∧
    (update_radius st step ratio).resolution = st.resolution := by
  refine ⟨?_, update_radius_resolution st step ratio⟩
  have e1 : st.radius * 0.5 = st.radius / 2 := by ring
  have e2 : (0.5 : ℝ) * st.radius = st.radius / 2 := by ring
  unfold update_radius
  split_ifs with h1 h2 <;> rw [radius_set_radius] <;> simp only [e1, e2] <;>
    split_ifs with h3 <;> first | rfl | (exact absurd h3 (by simpa [h1, h2]))

/-- The state used to exhibit that after `reduce_resolution` the radius may
lie strictly between the resolution and 1.4 times the resolution. -/
def betweenSt : TR := { sampleTR with radius := 2.5, resolution := 1 }

/-- The options used with `betweenSt`. -/
def betweenOpts : Options := { radius_init := 1, radius_final := 1, debug := false }

/-- C7: `reduce_resolution` shrinks the resolution to `resolution/10`, to
`sqrt (resolution * radius_final)` or to `radius_final` according to the
stated thresholds, then sets the radius to `max (radius/2) resolution`
without the snap-to-floor rule; consequently the radius can end up strictly
between the resolution and 1.4 times the resolution, as the concrete state
`betweenSt` shows. -/
theorem reduce_resolution_spec :
    (∀ (st : TR) (opts : Options),
      (reduce_resolution st opts).resolution =
        (if 250 * opts.radius_final < st.resolution then st.resolution / 10
         else if 16 * opts.radius_final < st.resolution then
           Real.sqrt (st.resolution * opts.radius_final)
         else opts.radius_final) ∧
      (reduce_resolution st opts).radius =
        max (st.radius / 2) ((reduce_resolution st opts).resolution)) ∧
    ((reduce_resolution betweenSt betweenOpts).resolution <
        (reduce_resolution betweenSt betweenOpts).radius ∧
      (reduce_resolution betweenSt betweenOpts).radius <
        1.4 * (reduce_resolution betweenSt betweenOpts).resolution) := by
  have hgen : ∀ (st : TR) (opts : Options),
      (reduce_resolution st opts).resolution =
        (if 250 * opts.radius_final < st.resolution then st.resolution / 10
         else if 16 * opts.radius_final < st.resolution then
           Real.sqrt (st.resolution * opts.radius_final)
         else opts.radius_final) ∧
      (reduce_resolution st opts).radius =
        max (st.radius / 2) ((reduce_resolution st opts).resolution) := by
    intro st opts
    constructor
    · show (if 250 * opts.radius_final < st.resolution then st.resolution * 0.1
         else if 16 * opts.radius_final < st.resolution then
           Real.sqrt (st.resolution * opts.radius_final)
         else opts.radius_final) = _
      split_ifs <;> first | ring | rfl
    · have h05 : st.radius * 0.5 = st.radius / 2 := by ring
      show max (st.radius * 0.5) ((reduce_resolution st opts).resolution) =
        max (st.radius / 2) ((reduce_resolution st opts).resolution)
      rw [h05]
  refine ⟨hgen, ?_⟩
  have hres : (reduce_resolution betweenSt betweenOpts).resolution = 1 := by
    rw [(hgen betweenSt betweenOpts).1]
    norm_num [betweenSt, betweenOpts, sampleTR]
  have hrad : (reduce_resolution betweenSt betweenOpts).radius = 1.25 := by
    rw [(hgen betweenSt betweenOpts).2, hres]
    norm_num [betweenSt, sampleTR]
  rw [hres, hrad]
  norm_num

/-- The actual merit reduction of §4.6: true merit at `x_best` minus true
merit at the trial point. -/
def actualRed (st : TR) (step : Vec) (fun_val : ℝ) (cub_val ceq_val : Vec) : ℝ :=
  merit st (x_best st) (fun_best st) (cub_best st) (ceq_best st) -
    merit st (vadd (x_best st) step) fun_val cub_val ceq_val

/-- The SQP-predicted merit reduction of §4.6. -/
def modelRed (st : TR) (step : Vec) : ℝ :=
  merit st (x_best st) 0 (st.models.cub (x_best st)) (st.models.ceq (x_best st)) -
    merit st (vadd (x_best st) step) (sqp_fun st step) (sqp_cub st step) (sqp_ceq st step)

/-- C3: `get_reduction_ratio` returns `actual / |model|` when `|model|`
exceeds the machine-tiny multiple of `|actual|` and the sentinel `-1`
otherwise; in the division branch the divisor is nonzero, so the result is
always a real number or `-1`. -/
theorem reduction_ratio_spec (st : TR) (step : Vec) (fun_val : ℝ) (cub_val ceq_val : Vec) :
    get_reduction_ratio st step fun_val cub_val ceq_val =
      (if tinyF * |actualRed st step fun_val cub_val ceq_val| < |modelRed st step| then
        actualRed st step fun_val cub_val ceq_val / |modelRed st step|
      else -1) ∧
    (get_reduction_ratio st step fun_val cub_val ceq_val = -1 ∨
      (modelRed st step ≠ 0 ∧
        get_reduction_ratio st step fun_val cub_val ceq_val =
          actualRed st step fun_val cub_val ceq_val / |modelRed st step|)) := by
  have hdef : get_reduction_ratio st step fun_val cub_val ceq_val =
      (if tinyF * |actualRed st step fun_val cub_val ceq_val| < |modelRed st step| then
        actualRed st step fun_val cub_val ceq_val / |modelRed st step|
      else -1) := rfl
  refine ⟨hdef, ?_⟩
  rw [hdef]
  split_ifs with h
  · right
    have htiny : 0 ≤ tinyF * |actualRed st step fun_val cub_val ceq_val| := by
      have : (0:ℝ) ≤ tinyF := by norm_num [tinyF]
      positivity
    exact ⟨abs_pos.mp (lt_of_le_of_lt htiny h), rfl⟩
  · left; rfl

/-- C4: `get_trust_region_step` obtains the normal step from the normal
Byrd-Omojokun solver with radius `0.8 * Delta` over the translated bounds,
then the tangential step with radius `sqrt (Delta^2 - ‖n‖^2)`, bounds shifted
by `n`, the inequality right-hand side relaxed to `max (bub - aub n) 0` and
gradient `∇f(x_best) + ∇²L n`; the bound-tangential solver is used exactly
for unconstrained and bound-constrained problems, the constrained solver
(receiving `aub`, the relaxed `bub`, `aeq`) otherwise. -/
theorem trust_region_step_spec (normal_solver : Mat → Vec → Mat → Vec → Vec → Vec → ℝ → Vec)
    (tangential_solver : Vec → (Vec → Vec) → Vec → Vec → ℝ → Vec)
    (constrained_solver : Vec → (Vec → Vec) → Vec → Vec → Mat → Vec → Mat → ℝ → Vec)
    (st : TR) :
    (get_trust_region_step normal_solver tangential_solver constrained_solver st).1 =
      normal_solver (aub_of st (x_best st)) (bub_of st (x_best st)) (aeq_of st (x_best st))
        (beq_of st (x_best st)) (vsub st.pb.xl (x_best st)) (vsub st.pb.xu (x_best st))
        (0.8 * st.radius) ∧
    (get_trust_region_step normal_solver tangential_solver constrained_solver st).2 =
      (let n := (get_trust_region_step normal_solver tangential_solver constrained_solver st).1
       let r := Real.sqrt (st.radius ^ 2 - norm2 n ^ 2)
       let g := vadd (st.models.fun_grad (x_best st)) (lag_model_hess_prod st n)
       let xl1 := vsub (vsub st.pb.xl (x_best st)) n
       let xu1 := vsub (vsub st.pb.xu (x_best st)) n
       if st.pb.ptype = PbType.unconstrained ∨ st.pb.ptype = PbType.bound_constrained then
         tangential_solver g (fun v => lag_model_hess_prod st v) xl1 xu1 r
       else
         constrained_solver g (fun v => lag_model_hess_prod st v) xl1 xu1
           (aub_of st (x_best st))
           (max0 (vsub (bub_of st (x_best st))
             (matVec (aub_of st (x_best st)) n)))
           (aeq_of st (x_best st)) r) := by
  constructor
  · rfl
  · simp only [norm2_sq]
    rfl

/-- C9: `get_second_order_correction_step` hands the normal Byrd-Omojokun
solver the linearizations recomputed at `x_best` with trust-region radius
`‖s‖^2` (the squared norm of the trial step); under the solver contract that
its result has norm at most `1.1 *` the requested radius, the correction step
therefore satisfies `‖s_soc‖ <= 1.1 * ‖s‖^2`. -/
theorem soc_step_spec (normal_solver : Mat → Vec → Mat → Vec → Vec → Vec → ℝ → Vec)
    (st : TR) (step : Vec)
    (hns : ∀ aub bub aeq beq xl xu r, 0 ≤ r →
      norm2 (normal_solver aub bub aeq beq xl xu r) ≤ 1.1 * r) :
    get_second_order_correction_step normal_solver st step =
      normal_solver (aub_of st (x_best st)) (bub_of st (x_best st)) (aeq_of st (x_best st))
        (beq_of st (x_best st)) (vsub st.pb.xl (x_best st)) (vsub st.pb.xu (x_best st))
        (norm2 step ^ 2) ∧
    norm2 (get_second_order_correction_step normal_solver st step) ≤ 1.1 * norm2 step ^ 2 := by
  have h1 : dot step step = norm2 step ^ 2 := (norm2_sq step).symm
  have heq : get_second_order_correction_step normal_solver st step =
      normal_solver (aub_of st (x_best st)) (bub_of st (x_best st)) (aeq_of st (x_best st))
        (beq_of st (x_best st)) (vsub st.pb.xl (x_best st)) (vsub st.pb.xu (x_best st))
        (norm2 step ^ 2) := by
    rw [get_second_order_correction_step, h1]
  refine ⟨heq, ?_⟩
  rw [heq]
  exact hns _ _ _ _ _ _ _ (by positivity)

/-- A trivial solver used to instantiate the abstract solver contracts. -/
def zeroSolver : Mat → Vec → Mat → Vec → Vec → Vec → ℝ → Vec := fun _ _ _ _ _ _ _ => [0]

/-- Witness for C9: the contract and the bound at a concrete state. -/
theorem soc_step_spec_witness :
    norm2 (get_second_order_correction_step zeroSolver sampleTR [1]) ≤ 1.1 * norm2 [1] ^ 2 :=
  (soc_step_spec zeroSolver sampleTR [1] (fun _ _ _ _ _ _ r hr => by
    have hz : norm2 (zeroSolver [] [] [] [] [] [] r) = 0 := by
      simp [zeroSolver, norm2, sqSum, Real.sqrt_zero]
    simp only [zeroSolver]
    simp [norm2, sqSum, Real.sqrt_zero]
    linarith)).2

/-- The threshold of §4.7: the Euclidean norm of the stacked multipliers,
raised to `sqp_var / viol_diff` when `|viol_diff|` exceeds the tiny multiple
of `|sqp_var|`. -/
def penaltyThreshold (st : TR) (step : Vec) : ℝ :=
  let viol_diff :=
    norm2 (max0 (vneg (bub_of st (x_best st))) ++ beq_of st (x_best st)) -
      norm2 (max0 (vsub (matVec (aub_of st (x_best st)) step) (bub_of st (x_best st))) ++
        vsub (matVec (aeq_of st (x_best st)) step) (beq_of st (x_best st)))
  let sqp_var :=
    dot step (vadd (st.models.fun_grad (x_best st)) (smul 0.5 (lag_model_hess_prod st step)))
  let lm_norm :=
    norm2 (st.lm_linear_ub ++ st.lm_linear_eq ++ st.lm_nonlinear_ub ++ st.lm_nonlinear_eq)
  if tinyF * |sqp_var| < |viol_diff| then max lm_norm (sqp_var / viol_diff) else lm_norm

lemma set_best_index_penalty (st : TR) : (set_best_index st).penalty = st.penalty := rfl

lemma set_best_index_only_best (st : TR) :
    (set_best_index st).pb = st.pb ∧ (set_best_index st).models = st.models ∧
      (set_best_index st).penalty = st.penalty := ⟨rfl, rfl, rfl⟩

/-- C5: `increase_penalty` updates the state to the re-selected best index
with penalty `2 * threshold` exactly when the penalty was at most
`1.5 * threshold` (so a nonnegative penalty never decreases), and it returns
true iff the best index after the call equals the one before. -/
theorem increase_penalty_spec (st : TR) (step : Vec) (hp : 0 ≤ st.penalty) :
    (increase_penalty st step).1 =
      (if st.penalty ≤ 1.5 * penaltyThreshold st step then
        set_best_index { st with penalty := 2 * penaltyThreshold st step }
      else st) ∧
    st.penalty ≤ (increase_penalty st step).1.penalty ∧
    ((increase_penalty st step).2 = true ↔
      (increase_penalty st step).1.best_index = st.best_index) := by
  have hfst : (increase_penalty st step).1 =
      (if st.penalty ≤ 1.5 * penaltyThreshold st step then
        set_best_index { st with penalty := 2 * penaltyThreshold st step }
      else st) := by
    simp only [increase_penalty, penaltyThreshold]
    split_ifs <;> rfl
  have hsnd : (increase_penalty st step).2 =
      (st.best_index == (increase_penalty st step).1.best_index) := by
    simp only [increase_penalty]
    split_ifs <;> rfl
  refine ⟨hfst, ?_, ?_⟩
  · rw [hfst]
    split_ifs with h
    · rw [set_best_index_penalty]
      show st.penalty ≤ 2 * penaltyThreshold st step
      linarith
    · exact le_refl _
  · rw [hsnd, beq_iff_eq, eq_comm]

/-- Witness for C5: penalty monotonicity at a concrete state and step. -/
theorem increase_penalty_spec_witness :
    sampleTR.penalty ≤ (increase_penalty sampleTR [1]).1.penalty :=
  (increase_penalty_spec sampleTR [1] (by norm_num [sampleTR])).2.1

lemma scatter_nonneg (mask : List Bool) :
    ∀ vals : Vec, (∀ v ∈ vals, 0 ≤ v) → ∀ x ∈ scatter mask vals, 0 ≤ x := by
  induction mask with
  | nil => intro vals h x hx; simp [scatter] at hx
  | cons b ms ih =>
    intro vals h x hx
    cases b with
    | false =>
      rw [show scatter (false :: ms) vals = 0 :: scatter ms vals from rfl] at hx
      rcases List.mem_cons.mp hx with h0 | h0
      · rw [h0]
      · exact ih vals h x h0
    | true =>
      cases vals with
      | nil =>
        rw [show scatter (true :: ms) [] = 0 :: scatter ms [] from rfl] at hx
        rcases List.mem_cons.mp hx with h0 | h0
        · rw [h0]
        · exact ih [] (by intro v hv; simp at hv) x h0
      | cons v vs =>
        rw [show scatter (true :: ms) (v :: vs) = v :: scatter ms vs from rfl] at hx
        rcases List.mem_cons.mp hx with h0 | h0
        · rw [h0]; exact h v (List.mem_cons_self _ _)
        · exact ih vs (fun w hw => h w (List.mem_cons_of_mem _ hw)) x h0

lemma scatter_getD_false (mask : List Bool) :
    ∀ (vals : Vec) (i : ℕ), mask.getD i true = false → (scatter mask vals).getD i 0 = 0 := by
  induction mask with
  | nil => intro vals i h; simp [List.getD] at h
  | cons b ms ih =>
    intro vals i h
    cases i with
    | zero =>
      simp only [List.getD_cons_zero] at h
      subst h
      cases vals <;> rfl
    | succ i =>
      have h1 : ms.getD i true = false := by simpa using h
      cases b with
      | false =>
        show (0 :: scatter ms vals).getD (i + 1) 0 = 0
        simpa using ih vals i h1
      | true =>
        cases vals with
        | nil =>
          show (0 :: scatter ms []).getD (i + 1) 0 = 0
          simpa using ih [] i h1
        | cons v vs =>
          show (v :: scatter ms vs).getD (i + 1) 0 = 0
          simpa using ih vs i h1

lemma mem_take_mono {α : Type} {l : List α} {a b : ℕ} (hab : a ≤ b) {x : α}
    (hx : x ∈ l.take a) : x ∈ l.take b := by
  have h1 : l.take a = (l.take b).take a := by
    rw [List.take_take, Nat.min_eq_left hab]
  rw [h1] at hx
  exact List.take_subset _ _ hx

lemma mem_take_of_mem_drop_take {l : Vec} {a b k : ℕ} (hk : a + b ≤ k) {x : ℝ}
    (hx : x ∈ (l.drop a).take b) : x ∈ l.take k := by
  have h1 : (l.drop a).take b = (l.take (a + b)).drop a := by
    rw [List.drop_take]
    congr 1
    omega
  rw [h1] at hx
  exact mem_take_mono hk (List.drop_subset _ _ hx)

/-- C2 (amended): after any call to `set_multipliers` in which the stacked
active Jacobian has at least one entry, the linear and nonlinear inequality
multipliers are nonnegative (given the BVLS contract that the first `k`
components of the solver output are nonnegative) and the multipliers of
inequality constraints inactive at `x_best` are exactly zero. -/
theorem set_multipliers_sign_spec (lsq : Mat → Vec → ℕ → Vec) (st : TR)
    (hlsq : ∀ A b k, ∀ v ∈ (lsq A b k).take k, 0 ≤ v)
    (hne : 0 < (stacked_jacobian st).length * st.pb.n) :
    (∀ v ∈ (set_multipliers lsq st).lm_linear_ub, 0 ≤ v) ∧
    (∀ v ∈ (set_multipliers lsq st).lm_nonlinear_ub, 0 ≤ v) ∧
    (∀ i, (incl_linear st).getD i true = false →
      (set_multipliers lsq st).lm_linear_ub.getD i 0 = 0) ∧
    (∀ i, (incl_nonlinear st).getD i true = false →
      (set_multipliers lsq st).lm_nonlinear_ub.getD i 0 = 0) := by
  have hlin : (set_multipliers lsq st).lm_linear_ub =
      scatter (incl_linear st)
        (((lsq (transposeM (stacked_jacobian st)) (vneg (st.models.fun_grad (x_best st)))
            (countTrue (incl_xl st) + countTrue (incl_xu st) + countTrue (incl_linear st) +
              countTrue (incl_nonlinear st))).drop
          (countTrue (incl_xl st) + countTrue (incl_xu st))).take (countTrue (incl_linear st))) := by
    simp only [set_multipliers]
    rw [if_pos hne]
  have hnonlin : (set_multipliers lsq st).lm_nonlinear_ub =
      scatter (incl_nonlinear st)
        (((lsq (transposeM (stacked_jacobian st)) (vneg (st.models.fun_grad (x_best st)))
            (countTrue (incl_xl st) + countTrue (incl_xu st) + countTrue (incl_linear st) +
              countTrue (incl_nonlinear st))).drop
          (countTrue (incl_xl st) + countTrue (incl_xu st) +
            countTrue (incl_linear st))).take (countTrue (incl_nonlinear st))) := by
    simp only [set_multipliers]
    rw [if_pos hne]
  have hsegL : ∀ v ∈ ((lsq (transposeM (stacked_jacobian st))
      (vneg (st.models.fun_grad (x_best st)))
      (countTrue (incl_xl st) + countTrue (incl_xu st) + countTrue (incl_linear st) +
        countTrue (incl_nonlinear st))).drop
      (countTrue (incl_xl st) + countTrue (incl_xu st))).take (countTrue (incl_linear st)),
      0 ≤ v := by
    intro v hv
    exact hlsq _ _ _ v (mem_take_of_mem_drop_take (by omega) hv)
  have hsegN : ∀ v ∈ ((lsq (transposeM (stacked_jacobian st))
      (vneg (st.models.fun_grad (x_best st)))
      (countTrue (incl_xl st) + countTrue (incl_xu st) + countTrue (incl_linear st) +
        countTrue (incl_nonlinear st))).drop
      (countTrue (incl_xl st) + countTrue (incl_xu st) +
        countTrue (incl_linear st))).take (countTrue (incl_nonlinear st)), 0 ≤ v := by
    intro v hv
    exact hlsq _ _ _ v (mem_take_of_mem_drop_take (by omega) hv)
  refine ⟨?_, ?_, ?_, ?_⟩
  · rw [hlin]; exact scatter_nonneg _ _ hsegL
  · rw [hnonlin]; exact scatter_nonneg _ _ hsegN
  · intro i hi; rw [hlin]; exact scatter_getD_false _ _ i hi
  · intro i hi; rw [hnonlin]; exact scatter_getD_false _ _ i hi

/-- A state with a single, inactive, linear inequality constraint and no
other constraint: the stacked active Jacobian is empty.  The value `-1` in
`lm_linear_ub` stands for the uninitialized content of the `np.empty` array
allocated by the constructor just before its call to `set_multipliers`. -/
def emptyJacPb : Problem :=
  { n := 1, xl := [-1], xu := [1], linear_ub_a := [[1]], linear_ub_b := [1],
    linear_eq_a := [], linear_eq_b := [], ptype := PbType.linearly_constrained,
    resid := fun _ _ _ => 0 }

def emptyJacState : TR :=
  { pb := emptyJacPb,
    models := sampleMod, penalty := 0, best_index := 0, radius := 1, resolution := 1,
    lm_linear_ub := [-1], lm_linear_eq := [], lm_nonlinear_ub := [], lm_nonlinear_eq := [] }

lemma emptyJac_x_best : x_best emptyJacState = [0] := rfl

lemma maskFilter_false {α : Type} (l : List α) (ms : List Bool)
    (h : ∀ b ∈ ms, b = false) : maskFilter l ms = [] := by
  induction l generalizing ms with
  | nil => cases ms <;> rfl
  | cons a l ih =>
    cases ms with
    | nil => rfl
    | cons b ms =>
      have hb : b = false := h b (by simp)
      subst hb
      rw [show maskFilter (a :: l) (false :: ms) = maskFilter l ms from by simp [maskFilter]]
      exact ih ms (fun c hc => h c (by simp [hc]))

lemma emptyJac_jacobian : stacked_jacobian emptyJacState = [] := by
  have h1 : incl_xl emptyJacState = [false] := by
    show List.zipWith (fun l xi => decide (xi ≤ l)) emptyJacState.pb.xl
      (x_best emptyJacState) = [false]
    norm_num [emptyJacState, emptyJacPb, sampleMod, x_best, decide_eq_false_iff_not]
  have h2 : incl_xu emptyJacState = [false] := by
    show List.zipWith (fun u xi => decide (u ≤ xi)) emptyJacState.pb.xu
      (x_best emptyJacState) = [false]
    norm_num [emptyJacState, emptyJacPb, sampleMod, x_best, decide_eq_false_iff_not]
  have h3 : incl_linear emptyJacState = [false] := by
    show List.zipWith (fun a b => decide (b ≤ a))
      (matVec emptyJacState.pb.linear_ub_a (x_best emptyJacState))
      emptyJacState.pb.linear_ub_b = [false]
    norm_num [emptyJacState, emptyJacPb, sampleMod, x_best, matVec, dot,
      decide_eq_false_iff_not]
  have h4 : incl_nonlinear emptyJacState = [] := rfl
  have e1 := maskFilter_false (identityMat emptyJacState.pb.n) [false] (by simp)
  have e2 := maskFilter_false emptyJacState.pb.linear_ub_a [false] (by simp)
  have e3 := maskFilter_false (emptyJacState.models.cub_grad (x_best emptyJacState)) []
    (by simp)
  rw [stacked_jacobian, h1, h2, h3, h4, e1, e2, e3]
  rfl

/-- C1 (code-bug evidence): on a state whose stacked active Jacobian has no
entries, `set_multipliers` leaves every multiplier array untouched, so the
uninitialized `np.empty` content written by the constructor (here `-1`)
survives instead of being set to zero as the specification requires. -/
theorem set_multipliers_empty_jacobian_bug :
    ∀ lsq : Mat → Vec → ℕ → Vec,
      (set_multipliers lsq emptyJacState).lm_linear_ub = [-1] ∧ ((-1 : ℝ) ≠ 0) := by
  intro lsq
  refine ⟨?_, by norm_num⟩
  simp only [set_multipliers]
  rw [if_neg (by rw [emptyJac_jacobian]; norm_num)]
  rfl

/-- A state with a single, inactive, nonlinear inequality constraint and no
other constraint; the stored multiplier `-2` models a stale value from a
previous call (or from `np.empty`). -/
def inactivePb : Problem :=
  { n := 1, xl := [-3], xu := [3], linear_ub_a := [], linear_ub_b := [],
    linear_eq_a := [], linear_eq_b := [], ptype := PbType.nonlinearly_constrained,
    resid := fun _ _ _ => 0 }

def inactiveState : TR :=
  { pb := inactivePb,
    models := { sampleMod with cub_val := fun _ => [-1], cub_grad := fun _ => [[1]] },
    penalty := 0, best_index := 0, radius := 1, resolution := 1,
    lm_linear_ub := [], lm_linear_eq := [], lm_nonlinear_ub := [-2], lm_nonlinear_eq := [] }

lemma inactive_x_best : x_best inactiveState = [0] := rfl

lemma inactive_mask : incl_nonlinear inactiveState = [false] := by
  show List.map (fun c => decide ((0 : ℝ) ≤ c)) (cub_best inactiveState) = [false]
  norm_num [inactiveState, inactivePb, sampleMod, cub_best, decide_eq_false_iff_not]

lemma inactive_jacobian : stacked_jacobian inactiveState = [] := by
  have h1 : incl_xl inactiveState = [false] := by
    show List.zipWith (fun l xi => decide (xi ≤ l)) inactiveState.pb.xl
      (x_best inactiveState) = [false]
    norm_num [inactiveState, inactivePb, sampleMod, x_best, decide_eq_false_iff_not]
  have h2 : incl_xu inactiveState = [false] := by
    show List.zipWith (fun u xi => decide (u ≤ xi)) inactiveState.pb.xu
      (x_best inactiveState) = [false]
    norm_num [inactiveState, inactivePb, sampleMod, x_best, decide_eq_false_iff_not]
  have h3 : incl_linear inactiveState = [] := rfl
  have e1 := maskFilter_false (identityMat inactiveState.pb.n) [false] (by simp)
  have e2 := maskFilter_false inactiveState.pb.linear_ub_a [] (by simp)
  have e3 := maskFilter_false (inactiveState.models.cub_grad (x_best inactiveState)) [false]
    (by simp)
  rw [stacked_jacobian, h1, h2, h3, inactive_mask, e1, e2, e3]
  rfl

/-- C2 (counterexample): after this call to `set_multipliers` the multiplier
of a nonlinear inequality constraint that is inactive at `x_best` equals
`-2`, which is neither zero nor nonnegative, because the empty active
Jacobian makes the method leave the arrays untouched. -/
theorem set_multipliers_inactive_counterexample :
    incl_nonlinear inactiveState = [false] ∧
    (set_multipliers (fun _ _ _ => []) inactiveState).lm_nonlinear_ub = [-2] ∧
    ¬(0 : ℝ) ≤ -2 := by
  refine ⟨inactive_mask, ?_, by norm_num⟩
  simp only [set_multipliers]
  rw [if_neg (by rw [inactive_jacobian]; norm_num)]
  rfl

/-- A state with one active and one inactive linear inequality constraint; the
stacked Jacobian is nonempty. -/
def activePb : Problem :=
  { n := 1, xl := [-3], xu := [3], linear_ub_a := [[1], [1]], linear_ub_b := [0, 1],
    linear_eq_a := [], linear_eq_b := [], ptype := PbType.linearly_constrained,
    resid := fun _ _ _ => 0 }

def activeState : TR :=
  { pb := activePb,
    models := sampleMod, penalty := 0, best_index := 0, radius := 1, resolution := 1,
    lm_linear_ub := [7, 7], lm_linear_eq := [], lm_nonlinear_ub := [], lm_nonlinear_eq := [] }

lemma active_x_best : x_best activeState = [0] := rfl

lemma active_mask : incl_linear activeState = [true, false] := by
  show List.zipWith (fun a b => decide (b ≤ a))
    (matVec activeState.pb.linear_ub_a (x_best activeState))
    activeState.pb.linear_ub_b = [true, false]
  norm_num [activeState, activePb, sampleMod, x_best, matVec, dot,
    decide_eq_false_iff_not, decide_eq_true_eq]

lemma active_jacobian : stacked_jacobian activeState = [[1]] := by
  have h1 : incl_xl activeState = [false] := by
    show List.zipWith (fun l xi => decide (xi ≤ l)) activeState.pb.xl
      (x_best activeState) = [false]
    norm_num [activeState, activePb, sampleMod, x_best, decide_eq_false_iff_not]
  have h2 : incl_xu activeState = [false] := by
    show List.zipWith (fun u xi => decide (u ≤ xi)) activeState.pb.xu
      (x_best activeState) = [false]
    norm_num [activeState, activePb, sampleMod, x_best, decide_eq_false_iff_not]
  have h4 : incl_nonlinear activeState = [] := rfl
  have e1 := maskFilter_false (identityMat activeState.pb.n) [false] (by simp)
  have e2 : maskFilter activeState.pb.linear_ub_a [true, false] = [[1]] := by
    show maskFilter [[1], [1]] [true, false] = [[1]]
    simp [maskFilter]
  have e3 := maskFilter_false (activeState.models.cub_grad (x_best activeState)) []
    (by simp)
  rw [stacked_jacobian, h1, h2, active_mask, h4, e1, e2, e3]
  rfl

/-- Witness for C2 (amended): with a contract-satisfying solver and a
nonempty active Jacobian, the multiplier of the inactive linear inequality is
zero after `set_multipliers`. -/
theorem set_multipliers_sign_spec_witness :
    (set_multipliers (fun _ _ _ => [0]) activeState).lm_linear_ub.getD 1 0 = 0 :=
  (set_multipliers_sign_spec (fun _ _ _ => [0]) activeState
    (by
      intro A b k v hv
      have h1 : v ∈ ([0] : Vec) := List.take_subset _ _ hv
      have h2 : v = 0 := by simpa using h1
      rw [h2])
    (by rw [active_jacobian]; norm_num [activeState, activePb])).2.2.1 1
    (by rw [active_mask]; rfl)

/-- Point `k` beats the accumulator of the `set_best_index` loop: strictly
smaller merit, or merit within the tolerance and strictly smaller residual. -/
abbrev fires (st : TR) (tol : ℝ) (acc : ℕ × ℝ × ℝ) (k : ℕ) : Prop :=
  meritAt st k < acc.2.1 ∨ (meritAt st k < acc.2.1 + tol ∧ residAt st k < acc.2.2)

lemma foldl_bestStep_stay (st : TR) (tol : ℝ) (a : ℕ × ℝ × ℝ) :
    ∀ l : List ℕ, (∀ k ∈ l, k ≠ st.best_index → ¬fires st tol a k) →
      l.foldl (bestStep st tol) a = a := by
  intro l
  induction l with
  | nil => intro _; rfl
  | cons x l ih =>
    intro h
    have hx : bestStep st tol a x = a := by
      by_cases hk : x ≠ st.best_index
      · have hnf : ¬fires st tol a x := h x (by simp) hk
        simp only [bestStep, if_pos hk, if_neg hnf]
      · simp only [bestStep, if_neg hk]
    rw [List.foldl_cons, hx]
    exact ih (fun k hk => h k (List.mem_cons_of_mem _ hk))

lemma foldl_bestStep_ne (st : TR) (tol : ℝ) :
    ∀ (l : List ℕ) (a : ℕ × ℝ × ℝ), a.1 ≠ st.best_index →
      (l.foldl (bestStep st tol) a).1 ≠ st.best_index := by
  intro l
  induction l with
  | nil => intro a h; exact h
  | cons x l ih =>
    intro a h
    rw [List.foldl_cons]
    apply ih
    by_cases hk : x ≠ st.best_index
    · by_cases hf : fires st tol a x
      · simp only [bestStep, if_pos hk, if_pos hf]; exact hk
      · simp only [bestStep, if_pos hk, if_neg hf]; exact h
    · simp only [bestStep, if_neg hk]; exact h

lemma foldl_bestStep_moves (st : TR) (tol : ℝ) :
    ∀ (l : List ℕ) (a : ℕ × ℝ × ℝ), a.1 = st.best_index →
      (∃ k ∈ l, k ≠ st.best_index ∧ fires st tol a k) →
      (l.foldl (bestStep st tol) a).1 ≠ st.best_index := by
  intro l
  induction l with
  | nil =>
    rintro a _ ⟨k, hk, _⟩
    simp at hk
  | cons x l ih =>
    rintro a ha ⟨k, hkmem, hkne, hkf⟩
    by_cases hx : x ≠ st.best_index ∧ fires st tol a x
    · have hstep : bestStep st tol a x = (x, meritAt st x, residAt st x) := by
        simp only [bestStep, if_pos hx.1, if_pos hx.2]
      rw [List.foldl_cons, hstep]
      exact foldl_bestStep_ne st tol l _ hx.1
    · have hstep : bestStep st tol a x = a := by
        by_cases hk2 : x ≠ st.best_index
        · have hnf : ¬fires st tol a x := fun hf => hx ⟨hk2, hf⟩
          simp only [bestStep, if_pos hk2, if_neg hnf]
        · simp only [bestStep, if_neg hk2]
      rw [List.foldl_cons, hstep]
      apply ih a ha
      refine ⟨k, ?_, hkne, hkf⟩
      rcases List.mem_cons.mp hkmem with hcase | hcase
      · exact absurd ⟨hcase ▸ hkne, hcase ▸ hkf⟩ hx
      · exact hcase

lemma set_best_index_best (st : TR) :
    (set_best_index st).best_index =
      ((List.range st.models.npt).foldl (bestStep st (bestTol st))
        (st.best_index, meritAt st st.best_index, residAt st st.best_index)).1 := rfl

lemma set_best_index_fixed_iff (s : TR) :
    (set_best_index s).best_index = s.best_index ↔
      ∀ k < s.models.npt, k ≠ s.best_index →
        ¬fires s (bestTol s)
          (s.best_index, meritAt s s.best_index, residAt s s.best_index) k := by
  constructor
  · intro hfix
    by_contra hex
    push_neg at hex
    obtain ⟨k, hk, hkne, hkf⟩ := hex
    rw [set_best_index_best] at hfix
    exact foldl_bestStep_moves s (bestTol s) (List.range s.models.npt) _ rfl
      ⟨k, List.mem_range.mpr hk, hkne, hkf⟩ hfix
  · intro h
    rw [set_best_index_best,
      foldl_bestStep_stay s (bestTol s) _ (List.range s.models.npt)
        (fun k hk => h k (List.mem_range.mp hk))]

/-- C10 (amended): re-invoking `set_best_index` immediately after it returns
leaves the best index unchanged if and only if no other interpolation point
beats the selected index: every other `k` has merit at least the selected
merit, and either its merit exceeds the selected merit plus the tolerance
computed at the selected index or its residual is at least the selected
residual. -/
theorem set_best_index_idempotent_iff (st : TR) :
    (set_best_index (set_best_index st)).best_index = (set_best_index st).best_index ↔
      ∀ k < (set_best_index st).models.npt, k ≠ (set_best_index st).best_index →
        ¬fires (set_best_index st) (bestTol (set_best_index st))
          ((set_best_index st).best_index,
            meritAt (set_best_index st) (set_best_index st).best_index,
            residAt (set_best_index st) (set_best_index st).best_index) k :=
  set_best_index_fixed_iff (set_best_index st)

/-- Problem handle of the oscillation counterexample: unconstrained in one
variable, with residual `1 - x_0` (0 at the point `[1]`, 1 at `[0]`). -/
def oscPb : Problem :=
  { n := 1, xl := [-9], xu := [9], linear_ub_a := [], linear_ub_b := [],
    linear_eq_a := [], linear_eq_b := [], ptype := PbType.unconstrained,
    resid := fun x _ _ => 1 - x.getD 0 0 }

/-- Models of the oscillation counterexample: two interpolation points whose
objective values differ by half the tie-break tolerance. -/
def oscMod : Models := { sampleMod with fun_val := fun k => if k = 0 then 0 else 10 * epsF }

/-- State on which `set_best_index` oscillates: point 1 is adopted from point
0 by the residual tie-break, and the next call strictly prefers point 0. -/
def oscState : TR :=
  { pb := oscPb, models := oscMod, penalty := 0, best_index := 0, radius := 1,
    resolution := 1, lm_linear_ub := [], lm_linear_eq := [], lm_nonlinear_ub := [],
    lm_nonlinear_eq := [] }

lemma osc_meritAt (st : TR) (hpb : st.pb = oscPb) (hmod : st.models = oscMod)
    (hpen : st.penalty = 0) :
    meritAt st 0 = 0 ∧ meritAt st 1 = 10 * epsF ∧ residAt st 0 = 1 ∧ residAt st 1 = 0 := by
  have hm : ∀ k, meritAt st k = st.models.fun_val k := by
    intro k
    show (if 0 < st.penalty then _ else st.models.fun_val k) = st.models.fun_val k
    rw [if_neg]
    rw [hpen]
    norm_num
  have hp0 : st.models.point 0 = [0] := by rw [hmod]; rfl
  have hp1 : st.models.point 1 = [1] := by rw [hmod]; rfl
  refine ⟨?_, ?_, ?_, ?_⟩
  · rw [hm 0, hmod]; norm_num [oscMod, sampleMod]
  · rw [hm 1, hmod]; norm_num [oscMod, sampleMod]
  · show st.pb.resid (st.models.point 0) _ _ = 1
    rw [hpb, hp0]
    norm_num [oscPb]
  · show st.pb.resid (st.models.point 1) _ _ = 0
    rw [hpb, hp1]
    norm_num [oscPb]

lemma epsF_pos : 0 < epsF := by norm_num [epsF]

lemma epsF_small : 10 * epsF ≤ 1 := by norm_num [epsF]

/-- The state after the first `set_best_index` call on `oscState`. -/
def osc1 : TR := { oscState with best_index := 1 }

lemma osc_pass1 : set_best_index oscState = osc1 := by
  obtain ⟨hm0, hm1, hr0, hr1⟩ := osc_meritAt oscState rfl rfl rfl
  have hbi : oscState.best_index = 0 := rfl
  have htol : bestTol oscState = 20 * epsF := by
    rw [bestTol, hbi, hm0]
    have h2 : ((max oscState.pb.n oscState.models.npt : ℕ) : ℝ) = 2 := by
      norm_num [oscState, oscPb, oscMod, sampleMod]
    rw [h2, abs_zero, max_eq_right (by norm_num : (0:ℝ) ≤ 1)]
    ring
  have hrange : List.range oscState.models.npt = [0, 1] := rfl
  have hstart : set_best_index oscState =
      { oscState with best_index :=
          (List.foldl (bestStep oscState (20 * epsF)) (0, (0:ℝ), (1:ℝ)) [0, 1]).1 } := by
    show ({ oscState with best_index :=
        ((List.range oscState.models.npt).foldl (bestStep oscState (bestTol oscState))
          (oscState.best_index, meritAt oscState oscState.best_index,
            residAt oscState oscState.best_index)).1 } : TR) = _
    rw [hrange, htol, hbi, hm0, hr0]
  rw [hstart]
  have e0 : bestStep oscState (20 * epsF) ((0:ℕ), (0:ℝ), (1:ℝ)) 0 = (0, (0:ℝ), (1:ℝ)) := by
    rw [bestStep, if_neg (by rw [hbi]; norm_num)]
  have hcond : fires oscState (20 * epsF) ((0:ℕ), (0:ℝ), (1:ℝ)) 1 := by
    show meritAt oscState 1 < 0 ∨ (meritAt oscState 1 < 0 + 20 * epsF ∧ residAt oscState 1 < 1)
    rw [hm1, hr1]
    right
    refine ⟨?_, by norm_num⟩
    nlinarith [epsF_pos]
  have e1 : bestStep oscState (20 * epsF) ((0:ℕ), (0:ℝ), (1:ℝ)) 1 =
      (1, meritAt oscState 1, residAt oscState 1) := by
    rw [bestStep, if_pos (by rw [hbi]; norm_num), if_pos hcond]
  rw [List.foldl_cons, e0, List.foldl_cons, e1, List.foldl_nil]
  rfl

lemma osc_pass2 : (set_best_index osc1).best_index = 0 := by
  obtain ⟨hm0, hm1, hr0, hr1⟩ := osc_meritAt osc1 rfl rfl rfl
  have hbi : osc1.best_index = 1 := rfl
  have htol : bestTol osc1 = 20 * epsF := by
    rw [bestTol, hbi, hm1]
    have h2 : ((max osc1.pb.n osc1.models.npt : ℕ) : ℝ) = 2 := by
      norm_num [osc1, oscState, oscPb, oscMod, sampleMod]
    have habs : |10 * epsF| = 10 * epsF := abs_of_nonneg (by nlinarith [epsF_pos])
    rw [h2, habs, max_eq_right epsF_small]
    ring
  have hrange : List.range osc1.models.npt = [0, 1] := rfl
  have hstart : (set_best_index osc1).best_index =
      (List.foldl (bestStep osc1 (20 * epsF)) (1, 10 * epsF, (0:ℝ)) [0, 1]).1 := by
    rw [set_best_index_best, hrange, htol, hbi, hm1, hr1]
  rw [hstart]
  have hcond : fires osc1 (20 * epsF) ((1:ℕ), 10 * epsF, (0:ℝ)) 0 := by
    show meritAt osc1 0 < 10 * epsF ∨
      (meritAt osc1 0 < 10 * epsF + 20 * epsF ∧ residAt osc1 0 < 0)
    rw [hm0]
    left
    nlinarith [epsF_pos]
  have e0 : bestStep osc1 (20 * epsF) ((1:ℕ), 10 * epsF, (0:ℝ)) 0 =
      (0, meritAt osc1 0, residAt osc1 0) := by
    rw [bestStep, if_pos (by rw [hbi]; norm_num), if_pos hcond]
  have e1 : bestStep osc1 (20 * epsF) ((0:ℕ), meritAt osc1 0, residAt osc1 0) 1 =
      (0, meritAt osc1 0, residAt osc1 0) := by
    rw [bestStep, if_neg (by rw [hbi]; norm_num)]
  rw [List.foldl_cons, e0, List.foldl_cons, e1, List.foldl_nil]

/-- C10 (counterexample): on `oscState` the first call to `set_best_index`
selects index 1 (a merit tie within the tolerance broken by the smaller
residual), and re-invoking it immediately afterwards, with models, penalty
and interpolation values unchanged, moves the best index back to 0: the
method is not idempotent. -/
theorem set_best_index_not_idempotent :
    (set_best_index oscState).best_index = 1 ∧
    (set_best_index (set_best_index oscState)).best_index = 0 ∧ (1 : ℕ) ≠ 0 := by
  refine ⟨?_, ?_, by norm_num⟩
  · rw [osc_pass1]
    rfl
  · rw [osc_pass1]
    exact osc_pass2

end

end Cobyqa
